import Mathlib

/-!
Verification development for the `dustat` unused-export analyzer.

The Go program is shallowly embedded below: `token.Position` becomes
`Position`, `Decl` and `makeDecl` are translated directly, the registry
maps (`Declarations`, `UsageCount`) become association lists with the
map-assignment and increment operations of Go maps, `ParseFiles` becomes a
two-phase fold over an abstract list of parsed source files, and
`toUnexported` is translated rune-by-rune over `List Char`, with Go's
`unicode.IsUpper` / `unicode.ToLower` modelled by Lean's ASCII
`Char.isUpper` / `Char.toLower` (every input in the program's test suite
and spec is ASCII, where the two agree).
-/

namespace Dustat

/-- Embedding of `go/token.Position` (the fields the program reads). -/
structure Position where
  filename : String
  line : Int
  column : Int
deriving DecidableEq, Repr

/-- Embedding of `Decl` from `main.go`: `Name`, `Pos`, `End`, `LineCount`. -/
structure Decl where
  name : String
  pos : Position
  endPos : Position
  lineCount : Int
deriving DecidableEq, Repr

/-- Embedding of `makeDecl`: `LineCount = endPos.Line - pos.Line + 1`. -/
def makeDecl (name : String) (start stop : Position) : Decl :=
  { lineCount := stop.line - start.line + 1
    endPos := stop
    pos := start
    name := name }

/-! ### The case-transformation algorithm `toUnexported` -/

/-- The scan `for i := 0; i < len(runes); i++ { if !unicode.IsUpper(runes[i])
{ firstLower = i; break } }` from `toUnexported`: index of the first
non-uppercase rune, `none` when the whole name is uppercase. -/
def firstNonUpper : List Char → Nat → Option Nat
  | [], _ => none
  | c :: cs, i => if c.isUpper then firstNonUpper cs (i + 1) else some i

/-- The final loop of `toUnexported`: lowercase exactly the first `n` runes. -/
def lowerFirstN : Nat → List Char → List Char
  | 0, rs => rs
  | _ + 1, [] => []
  | n + 1, c :: cs => c.toLower :: lowerFirstN n cs

/-- Core of `toUnexported` over the rune list (`[]rune(name)`). -/
def toUnexportedCore (rs : List Char) : List Char :=
  match rs with
  | [] => []
  | [c] => [c.toLower]
  | _ =>
    match firstNonUpper rs 0 with
    | none => rs.map Char.toLower
    | some firstLower =>
      let toLowerCount :=
        if 1 < firstLower ∧ (rs.getD (firstLower - 1) ' ').isUpper = true ∧
            firstLower < rs.length - 1
        then firstLower - 1
        else firstLower
      lowerFirstN toLowerCount rs

/-- Embedding of `toUnexported` from the repository (the acronym-aware
demotion of an exported name to a private name). -/
def toUnexported (name : String) : String :=
  String.mk (toUnexportedCore name.toList)

/-- First character of a string is an ASCII lowercase letter. -/
def firstCharIsLower (s : String) : Bool :=
  match s.toList with
  | [] => false
  | c :: _ => c.isLower

/-- First character of a string is an ASCII letter. -/
def firstCharIsAlpha (s : String) : Bool :=
  match s.toList with
  | [] => false
  | c :: _ => c.isAlpha

/-- Whether the string `s` begins with the string `pre` (rune-wise). -/
def strBeginsWith (s pre : String) : Bool :=
  decide (pre.toList = s.toList.take pre.toList.length)

/-! ### Go map operations

Go's `map[string]V` assignment `m[k] = v` and zero-default read are embedded
on association lists: assignment overwrites the value of an existing key in
place and appends a fresh key at the end. -/

/-- Map assignment `m[k] = v`. -/
def mapSet {α : Type} : List (String × α) → String → α → List (String × α)
  | [], k, v => [(k, v)]
  | (k', v') :: rest, k, v =>
    if k' = k then (k, v) :: rest else (k', v') :: mapSet rest k v

/-- Map read returning `none` for a missing key. -/
def mapLookup {α : Type} : List (String × α) → String → Option α
  | [], _ => none
  | (k', v') :: rest, k => if k' = k then some v' else mapLookup rest k

/-- Go map read of `UsageCount` with the zero value `0` for missing keys. -/
def lookupCount (m : List (String × Int)) (k : String) : Int :=
  (mapLookup m k).getD 0

/-- Go's `reg.UsageCount[name]++`. -/
def bump (m : List (String × Int)) (k : String) : List (String × Int) :=
  mapSet m k (lookupCount m k + 1)

/-! ### The registry and the two-phase scan `ParseFiles` -/

/-- Embedding of `ast.IsExported`: the first rune is uppercase. -/
def isExported (name : String) : Bool :=
  match name.toList with
  | [] => false
  | c :: _ => c.isUpper

/-- Embedding of `strings.HasSuffix`. -/
def hasSuffix (s suf : String) : Bool :=
  decide (suf.toList = s.toList.drop (s.toList.length - suf.toList.length))

/-- One top-level declaration site extracted by the collector loop of
`ParseFiles` (a `FuncDecl` name with the declaration's end, a `TypeSpec`
name with the spec's end, or one name of a `ValueSpec` with the spec's
end): just a name with its start and end positions. -/
structure DeclSite where
  name : String
  pos : Position
  endPos : Position
deriving DecidableEq, Repr

/-- One parsed source file as `ParseFiles` observes it: its name (as tested
by the `strings.HasSuffix` filters), its top-level declaration sites in
syntactic order, and every identifier occurrence that `ast.Inspect` visits,
in visit order. -/
structure SrcFile where
  filename : String
  decls : List DeclSite
  idents : List String
deriving DecidableEq, Repr

/-- Embedding of `Registry` from `main.go`. -/
structure Registry where
  path : String
  ignore : List String
  declarations : List (String × Decl)
  usageCount : List (String × Int)
  result : List Decl
  totalUnusedLoc : Int
deriving DecidableEq, Repr

/-- Embedding of `NewRegistry` (the `os.Stat` existence check is an external
effect and not modelled; the initial maps, result and total are as in the
source). -/
def newRegistry (path : String) : Registry :=
  { declarations := []
    usageCount := []
    ignore := []
    result := []
    totalUnusedLoc := 0
    path := path }

/-- Embedding of `WithIgnoreList`. -/
def withIgnoreList (reg : Registry) (ignore : List String) : Registry :=
  { reg with ignore := ignore }

/-- The declaration-collection loop of `ParseFiles` over one file's
declarations: exported names are written into the `Declarations` map. -/
def collectDecls (ds : List DeclSite) (m : List (String × Decl)) : List (String × Decl) :=
  ds.foldl (fun acc d =>
    if isExported d.name then mapSet acc d.name (makeDecl d.name d.pos d.endPos) else acc) m

/-- The `ast.Inspect` usage loop: every identifier occurrence increments
its usage count. -/
def collectUsage (ids : List String) (m : List (String × Int)) : List (String × Int) :=
  ids.foldl bump m

/-- First walk callback of `ParseFiles`: a file whose name ends in `.go`
contributes its exported declarations and all its identifier occurrences. -/
def phase1File (reg : Registry) (f : SrcFile) : Registry :=
  if hasSuffix f.filename ".go" then
    { reg with
        declarations := collectDecls f.decls reg.declarations
        usageCount := collectUsage f.idents reg.usageCount }
  else reg

/-- Second walk callback of `ParseFiles`: a file whose name ends in
`_test.go` contributes its identifier occurrences once more. -/
def phase2File (reg : Registry) (f : SrcFile) : Registry :=
  if hasSuffix f.filename "_test.go" then
    { reg with usageCount := collectUsage f.idents reg.usageCount }
  else reg

/-- Embedding of `ParseFiles`: the first walk over the whole tree, then the
second walk over the same tree. -/
def parseFiles (reg : Registry) (files : List SrcFile) : Registry :=
  files.foldl phase2File (files.foldl phase1File reg)

/-! ### Classification: `AccumulateResult` -/

/-- Body of the `AccumulateResult` loop for one `Declarations` entry. -/
def accumStep (ignore : List String) (usage : List (String × Int))
    (acc : List Decl × Int) (nd : String × Decl) : List Decl × Int :=
  if nd.1 ∈ ignore then acc
  else if lookupCount usage nd.1 ≤ 1 then (acc.1 ++ [nd.2], acc.2 + nd.2.lineCount)
  else acc

/-- Embedding of `AccumulateResult`: fold the loop body over the
`Declarations` entries, extending `Result` and `TotalUnusedLoc`. -/
def accumulateResult (reg : Registry) : Registry :=
  let fin := reg.declarations.foldl (accumStep reg.ignore reg.usageCount)
    (reg.result, reg.totalUnusedLoc)
  { reg with result := fin.1, totalUnusedLoc := fin.2 }

/-! ### Reporting and fixing -/

/-- The `sort.Slice` of `Report`: ascending by `LineCount`. -/
def reportSort (l : List Decl) : List Decl :=
  List.insertionSort (fun a b => a.lineCount ≤ b.lineCount) l

/-- Embedding of `Issue` from the JSON reporter. -/
structure Issue where
  symbol : String
  line : Int
deriving DecidableEq, Repr

/-- Embedding of `FileIssues` from the JSON reporter. -/
structure FileIssues where
  file : String
  issues : List Issue
deriving DecidableEq, Repr

/-- Go's `fileMap[filePath] = append(fileMap[filePath], issue)`. -/
def mapAppendIssue (m : List (String × List Issue)) (k : String) (i : Issue) :
    List (String × List Issue) :=
  mapSet m k ((mapLookup m k).getD [] ++ [i])

/-- The grouping loop of `ReportJSON` over `reg.Result`. -/
def groupByFile (rs : List Decl) : List (String × List Issue) :=
  rs.foldl (fun m d => mapAppendIssue m d.pos.filename ⟨d.name, d.pos.line⟩) []

/-- The inner `sort.Slice` of `ReportJSON`: issues ascending by line. -/
def sortIssuesByLine (l : List Issue) : List Issue :=
  List.insertionSort (fun a b => a.line ≤ b.line) l

/-- Embedding of `ReportJSON`'s construction of `results`: group `Result`
by file, sort each group's issues by line, then sort the groups by file
path. -/
def reportJSON (rs : List Decl) : List FileIssues :=
  List.insertionSort (fun a b => a.file ≤ b.file)
    ((groupByFile rs).map (fun kv => ⟨kv.1, sortIssuesByLine kv.2⟩))

/-- The `results` slice handed to `json.MarshalIndent`, keeping Go's
nil-slice/empty-slice distinction: `none` is a nil slice (marshalled as
`null`), `some l` a non-nil slice (marshalled as a JSON array). Go
initializes `results` as a non-nil empty slice literal, so the model is
always `some`. -/
def reportJSONSlice (rs : List Decl) : Option (List FileIssues) :=
  some (reportJSON rs)

instance : IsTotal FileIssues (fun a b => a.file ≤ b.file) :=
  ⟨fun a b => le_total a.file b.file⟩

instance : IsTrans FileIssues (fun a b => a.file ≤ b.file) :=
  ⟨fun _ _ _ h1 h2 => le_trans h1 h2⟩

instance : IsTotal Issue (fun a b => a.line ≤ b.line) :=
  ⟨fun a b => le_total a.line b.line⟩

instance : IsTrans Issue (fun a b => a.line ≤ b.line) :=
  ⟨fun _ _ _ h1 h2 => le_trans h1 h2⟩

/-- Environment of `Fix`'s external collaborators: whether `gopls` is on
the path, and the success of each `gopls rename` invocation (keyed by the
declaration and the new name). -/
structure FixEnv where
  goplsPresent : Bool
  renameOk : Decl → String → Bool

/-- Observable state of the `Fix` loop: the renames actually invoked (in
order), and the `successful` / `skipped` / `failed` counters. -/
structure FixCounts where
  attempts : List Decl
  successful : Int
  skipped : Int
  failed : Int

/-- The `sort.Slice` of `Fix`: by file, then by line. -/
def fixSort (l : List Decl) : List Decl :=
  List.insertionSort
    (fun a b => a.pos.filename < b.pos.filename ∨
      (a.pos.filename = b.pos.filename ∧ a.pos.line ≤ b.pos.line)) l

/-- The per-item loop of `Fix`: skip unchanged names, count dry-run items
as successful without invoking anything, otherwise invoke the rename and
count success or failure, always continuing to the next item. -/
def fixLoop (env : FixEnv) (dryRun : Bool) : List Decl → FixCounts → FixCounts
  | [], acc => acc
  | d :: rest, acc =>
    let newName := toUnexported d.name
    if newName = d.name then
      fixLoop env dryRun rest { acc with skipped := acc.skipped + 1 }
    else if dryRun then
      fixLoop env dryRun rest { acc with successful := acc.successful + 1 }
    else if env.renameOk d newName then
      fixLoop env dryRun rest
        { acc with attempts := acc.attempts ++ [d], successful := acc.successful + 1 }
    else
      fixLoop env dryRun rest
        { acc with attempts := acc.attempts ++ [d], failed := acc.failed + 1 }

/-- Result of `Fix`: the loop counters and whether a non-nil error was
returned. -/
structure FixOutcome where
  counts : FixCounts
  isErr : Bool

/-- Embedding of `Fix`: fail at once when `gopls` is missing (before any
rename), return nil on an empty result set, otherwise run the loop over the
sorted results and fail exactly when a non-dry run had a failed rename. -/
def Fix (env : FixEnv) (reg : Registry) (dryRun : Bool) : FixOutcome :=
  if env.goplsPresent = false then
    ⟨⟨[], 0, 0, 0⟩, true⟩
  else if reg.result.length = 0 then
    ⟨⟨[], 0, 0, 0⟩, false⟩
  else
    let acc := fixLoop env dryRun (fixSort reg.result) ⟨[], 0, 0, 0⟩
    ⟨acc, decide (dryRun = false ∧ 0 < acc.failed)⟩

/-! ### Specification-side helper definitions used to state the claims -/

/-- The map write a declaration site performs. -/
def toWrite (d : DeclSite) : String × Decl :=
  (d.name, makeDecl d.name d.pos d.endPos)

/-- All `Declarations` writes performed by the first walk, in traversal
order. -/
def declWrites (fs : List SrcFile) : List (String × Decl) :=
  (fs.filter (fun f => hasSuffix f.filename ".go")).flatMap
    (fun f => (f.decls.filter (fun d => isExported d.name)).map toWrite)

/-- Replay a list of map writes. -/
def applyWrites {α : Type} (m : List (String × α)) (ws : List (String × α)) :
    List (String × α) :=
  ws.foldl (fun acc kv => mapSet acc kv.1 kv.2) m

/-- The value of the last write of key `n` in a write list, if any. -/
def lastWrite {α : Type} (ws : List (String × α)) (n : String) : Option α :=
  ws.foldl (fun acc kv => if kv.1 = n then some kv.2 else acc) none

/-- The first of two optional values that is present, used to state how a
replayed write list relates to the original map. -/
def firstSome {α : Type} (o fallback : Option α) : Option α :=
  match o with
  | some v => some v
  | none => fallback

/-- Number of occurrences of identifier `n` in a list of identifier
occurrences, as a Go `int`. -/
def occCount (ids : List String) (n : String) : Int :=
  (ids.count n : Int)

/-- Usage-count contribution of one file across both walks of
`ParseFiles`: its occurrences once if its name ends in `.go`, and once more
if it ends in `_test.go`. -/
def fileOccCount (f : SrcFile) (n : String) : Int :=
  (if hasSuffix f.filename ".go" then occCount f.idents n else 0) +
  (if hasSuffix f.filename "_test.go" then occCount f.idents n else 0)

/-- Usage-count contribution of one whole `ParseFiles` run to name `n`. -/
def treeOccCount (fs : List SrcFile) (n : String) : Int :=
  (fs.map (fun f => fileOccCount f n)).sum

/-- The `Declarations` entries that `AccumulateResult` classifies as
unused: not ignored and with usage count at most 1. -/
def unusedEntries (ignore : List String) (usage : List (String × Int))
    (ds : List (String × Decl)) : List (String × Decl) :=
  ds.filter (fun nd => decide (¬ nd.1 ∈ ignore ∧ lookupCount usage nd.1 ≤ 1))

/-! ### ASCII case lemmas for the embedded `unicode.IsUpper` / `unicode.ToLower` -/

theorem char_isUpper_iff (c : Char) : c.isUpper = true ↔ 65 ≤ c.toNat ∧ c.toNat ≤ 90 := by
  simp [Char.isUpper, UInt32.le_def, BitVec.le_def, Char.toNat, UInt32.toNat]

theorem char_isLower_iff (c : Char) : c.isLower = true ↔ 97 ≤ c.toNat ∧ c.toNat ≤ 122 := by
  simp [Char.isLower, UInt32.le_def, BitVec.le_def, Char.toNat, UInt32.toNat]

theorem char_toNat_ofNat_valid {n : Nat} (h : n.isValidChar) : (Char.ofNat n).toNat = n := by
  simp [Char.ofNat, h, Char.ofNatAux, Char.toNat, UInt32.toNat]

theorem char_toLower_of_upper {c : Char} (h : c.isUpper = true) :
    (c.toLower).toNat = c.toNat + 32 := by
  rw [char_isUpper_iff] at h
  rw [Char.toLower]
  rw [if_pos (by omega)]
  exact char_toNat_ofNat_valid (Or.inl (by omega))

theorem char_toLower_of_not_upper {c : Char} (h : c.isUpper = false) : c.toLower = c := by
  rw [Char.toLower, if_neg]
  intro hc
  have := (char_isUpper_iff c).2 hc
  rw [h] at this
  exact Bool.false_ne_true this

theorem char_isUpper_toLower (c : Char) : (c.toLower).isUpper = false := by
  cases hu : c.isUpper with
  | true =>
    have := char_toLower_of_upper hu
    have hr := (char_isUpper_iff c).1 hu
    cases hv : (c.toLower).isUpper with
    | false => rfl
    | true =>
      have := (char_isUpper_iff _).1 hv
      omega
  | false => rw [char_toLower_of_not_upper hu]; exact hu

theorem char_toLower_toLower (c : Char) : (c.toLower).toLower = c.toLower :=
  char_toLower_of_not_upper (char_isUpper_toLower c)

theorem char_isLower_toLower {c : Char} (h : c.isAlpha = true) : (c.toLower).isLower = true := by
  rw [Char.isAlpha, Bool.or_eq_true] at h
  cases h with
  | inl hu =>
    have h32 := char_toLower_of_upper hu
    have hr := (char_isUpper_iff c).1 hu
    exact (char_isLower_iff _).2 (by omega)
  | inr hl =>
    have hnu : c.isUpper = false := by
      cases hu : c.isUpper with
      | false => rfl
      | true =>
        have h1 := (char_isUpper_iff c).1 hu
        have h2 := (char_isLower_iff c).1 hl
        omega
    rw [char_toLower_of_not_upper hnu]; exact hl

end Dustat

namespace Dustat

/-! ### Structure of `toUnexportedCore` -/

theorem firstNonUpper_le {cs : List Char} : ∀ {i j : Nat}, firstNonUpper cs i = some j → i ≤ j := by
  induction cs with
  | nil => intro i j h; cases h
  | cons c cs ih =>
    intro i j h
    rw [firstNonUpper] at h
    by_cases hc : c.isUpper = true
    · rw [if_pos hc] at h
      have := ih h
      omega
    · rw [if_neg hc] at h
      cases h
      exact Nat.le_refl _

theorem lowerFirstN_zero (rs : List Char) : lowerFirstN 0 rs = rs := rfl

theorem lowerFirstN_succ (n : Nat) (c : Char) (cs : List Char) :
    lowerFirstN (n + 1) (c :: cs) = c.toLower :: lowerFirstN n cs := rfl

theorem core_id (a b : Char) (t : List Char) (h : a.isUpper = false) :
    toUnexportedCore (a :: b :: t) = a :: b :: t := by
  show (match firstNonUpper (a :: b :: t) 0 with
    | none => (a :: b :: t).map Char.toLower
    | some firstLower =>
      let toLowerCount :=
        if 1 < firstLower ∧ ((a :: b :: t).getD (firstLower - 1) ' ').isUpper = true ∧
            firstLower < (a :: b :: t).length - 1
        then firstLower - 1
        else firstLower
      lowerFirstN toLowerCount (a :: b :: t)) = a :: b :: t
  rw [firstNonUpper, if_neg (by simp [h])]
  simp [lowerFirstN_zero]

theorem core_cons2 (a b : Char) (t : List Char) :
    toUnexportedCore (a :: b :: t) =
      match firstNonUpper (a :: b :: t) 0 with
      | none => (a :: b :: t).map Char.toLower
      | some firstLower =>
        lowerFirstN
          (if 1 < firstLower ∧ ((a :: b :: t).getD (firstLower - 1) ' ').isUpper = true ∧
              firstLower < (a :: b :: t).length - 1
           then firstLower - 1 else firstLower)
          (a :: b :: t) := rfl

theorem lowerFirstN_cons_ex (n : Nat) (b : Char) (t : List Char) :
    ∃ y ys, lowerFirstN n (b :: t) = y :: ys := by
  cases n with
  | zero => exact ⟨b, t, rfl⟩
  | succ n => exact ⟨b.toLower, lowerFirstN n t, rfl⟩

theorem core_shape (a b : Char) (t : List Char) :
    (a.isUpper = false ∧ toUnexportedCore (a :: b :: t) = a :: b :: t) ∨
    ∃ y ys, toUnexportedCore (a :: b :: t) = a.toLower :: y :: ys := by
  by_cases ha : a.isUpper = true
  · rw [core_cons2, firstNonUpper, if_pos ha]
    cases hf : firstNonUpper (b :: t) (0 + 1) with
    | none =>
      right
      exact ⟨b.toLower, t.map Char.toLower, rfl⟩
    | some f =>
      have hf1 : 1 ≤ f := firstNonUpper_le hf
      right
      dsimp only
      set cnt := (if 1 < f ∧ ((a :: b :: t).getD (f - 1) ' ').isUpper = true ∧
              f < (a :: b :: t).length - 1
           then f - 1 else f) with hcnt
      have hpos : 1 ≤ cnt := by
        rw [hcnt]
        split
        · rename_i hcond
          omega
        · omega
      obtain ⟨m, hm⟩ : ∃ m, cnt = m + 1 := ⟨cnt - 1, by omega⟩
      rw [hm, lowerFirstN_succ]
      obtain ⟨y, ys, hys⟩ := lowerFirstN_cons_ex m b t
      exact ⟨y, ys, by rw [hys]⟩
  · left
    exact ⟨by simpa using ha, core_id a b t (by simpa using ha)⟩

theorem core_core (l : List Char) : toUnexportedCore (toUnexportedCore l) = toUnexportedCore l := by
  match l with
  | [] => rfl
  | [c] =>
    show toUnexportedCore [c.toLower] = [c.toLower]
    show [c.toLower.toLower] = [c.toLower]
    rw [char_toLower_toLower]
  | a :: b :: t =>
    cases core_shape a b t with
    | inl h => rw [h.2, h.2]
    | inr h =>
      obtain ⟨y, ys, h⟩ := h
      rw [h]
      exact core_id _ _ _ (char_isUpper_toLower a)

theorem core_head_lower (c : Char) (cs : List Char) (h : c.isAlpha = true) :
    ∃ d ds, toUnexportedCore (c :: cs) = d :: ds ∧ d.isLower = true := by
  cases cs with
  | nil => exact ⟨c.toLower, [], rfl, char_isLower_toLower h⟩
  | cons b t =>
    cases core_shape c b t with
    | inl hid =>
      refine ⟨c, b :: t, hid.2, ?_⟩
      rw [Char.isAlpha, Bool.or_eq_true, hid.1] at h
      simpa using h
    | inr hex =>
      obtain ⟨y, ys, heq⟩ := hex
      exact ⟨c.toLower, y :: ys, heq, char_isLower_toLower h⟩

/-! ### Claims about `toUnexported` -/

/-- C2: the private-name derivation `toUnexported` reproduces the spec's
worked examples exactly. -/
theorem claim_C2 :
    toUnexported "MyFunc" = "myFunc" ∧ toUnexported "HTTPServer" = "httpServer" ∧
    toUnexported "HTTP" = "http" ∧ toUnexported "ID" = "id" ∧
    toUnexported "HTTPs" = "https" ∧ toUnexported "APIURLPath" = "apiurlPath" := by
  decide

/-- C5 (counterexample): the claim quantifies over every non-empty input
string, but on the non-empty input `"1"` the output of `toUnexported` is
`"1"`, whose first character is not lowercase. -/
theorem claim_C5_cex :
    toUnexported "1" ≠ "" ∧ firstCharIsLower (toUnexported "1") = false := by decide

/-- C5 (amended): for every input whose first character is an ASCII letter
(as the first character of a Go exported identifier is), the first
character of `toUnexported`'s output is lowercase; and the output for
`"HTTPServer"` does not begin with the mixed-case acronym `"hTTP"`. -/
theorem claim_C5 (s : String) (h : firstCharIsAlpha s = true) :
    firstCharIsLower (toUnexported s) = true ∧
    strBeginsWith (toUnexported "HTTPServer") "hTTP" = false := by
  refine ⟨?_, by decide⟩
  rw [firstCharIsAlpha] at h
  rw [toUnexported, firstCharIsLower]
  cases hl : s.toList with
  | nil => rw [hl] at h; cases h
  | cons c cs =>
    rw [hl] at h
    obtain ⟨d, ds, heq, hd⟩ := core_head_lower c cs h
    rw [show (String.mk (toUnexportedCore (c :: cs))).toList = toUnexportedCore (c :: cs) from rfl]
    rw [heq]
    exact hd

/-- C5 witness: the amended theorem applied at the concrete input
`"MyFunc"`. -/
theorem claim_C5_witness :
    firstCharIsAlpha "MyFunc" = true ∧
    (firstCharIsLower (toUnexported "MyFunc") = true ∧
      strBeginsWith (toUnexported "HTTPServer") "hTTP" = false) :=
  ⟨by decide, claim_C5 "MyFunc" (by decide)⟩

/-- C10: `toUnexported` is idempotent: applying it twice gives the same
result as applying it once, for every input string. -/
theorem claim_C10 (s : String) : toUnexported (toUnexported s) = toUnexported s := by
  show String.mk (toUnexportedCore (String.mk (toUnexportedCore s.toList)).toList) =
    String.mk (toUnexportedCore s.toList)
  rw [show (String.mk (toUnexportedCore s.toList)).toList = toUnexportedCore s.toList from rfl,
    core_core]

end Dustat

namespace Dustat

/-! ### Map lemmas -/

theorem mapLookup_mapSet {α : Type} (m : List (String × α)) (k n : String) (v : α) :
    mapLookup (mapSet m k v) n = if k = n then some v else mapLookup m n := by
  induction m with
  | nil => simp [mapSet, mapLookup]
  | cons kv rest ih =>
    obtain ⟨k', v'⟩ := kv
    rw [mapSet]
    by_cases h1 : k' = k
    · rw [if_pos h1]
      subst h1
      by_cases h2 : k' = n
      · subst h2; simp [mapLookup]
      · simp [mapLookup, h2]
    · rw [if_neg h1]
      by_cases h2 : k' = n
      · subst h2
        have hkn : ¬ k = k' := fun hh => h1 hh.symm
        simp [mapLookup, hkn]
      · simp [mapLookup, h2, ih]

theorem lookupCount_bump (m : List (String × Int)) (k n : String) :
    lookupCount (bump m k) n = lookupCount m n + if k = n then 1 else 0 := by
  rw [bump, lookupCount, mapLookup_mapSet]
  by_cases h : k = n
  · subst h; simp [lookupCount]
  · simp [h, lookupCount]

theorem lookupCount_collectUsage (ids : List String) (m : List (String × Int)) (n : String) :
    lookupCount (collectUsage ids m) n = lookupCount m n + occCount ids n := by
  induction ids generalizing m with
  | nil => simp [collectUsage, occCount, List.count_nil]
  | cons i rest ih =>
    rw [collectUsage, List.foldl_cons,
      show List.foldl bump (bump m i) rest = collectUsage rest (bump m i) from rfl,
      ih, lookupCount_bump]
    have hc : (i :: rest).count n = rest.count n + (if i = n then 1 else 0) := by
      by_cases h : i = n
      · subst h; simp [List.count_cons]
      · have h2 : ¬ n = i := fun hh => h hh.symm
        simp [List.count_cons, h, h2]
    rw [occCount, occCount, hc]
    by_cases h : i = n
    · rw [if_pos h, if_pos h]; omega
    · rw [if_neg h, if_neg h]; omega

/-! ### The two walks of `ParseFiles` -/

theorem phase2_declarations (fs : List SrcFile) (reg : Registry) :
    (fs.foldl phase2File reg).declarations = reg.declarations := by
  induction fs generalizing reg with
  | nil => rfl
  | cons f fs ih =>
    rw [List.foldl_cons, ih, phase2File]
    split
    · rfl
    · rfl

theorem phase1_usage (fs : List SrcFile) (reg : Registry) (n : String) :
    lookupCount (fs.foldl phase1File reg).usageCount n =
      lookupCount reg.usageCount n +
        (fs.map (fun f => if hasSuffix f.filename ".go" then occCount f.idents n else 0)).sum := by
  induction fs generalizing reg with
  | nil => simp
  | cons f fs ih =>
    rw [List.foldl_cons, ih, List.map_cons, List.sum_cons, phase1File]
    split
    · dsimp only
      rw [lookupCount_collectUsage]
      ring
    · ring

theorem phase2_usage (fs : List SrcFile) (reg : Registry) (n : String) :
    lookupCount (fs.foldl phase2File reg).usageCount n =
      lookupCount reg.usageCount n +
        (fs.map (fun f =>
          if hasSuffix f.filename "_test.go" then occCount f.idents n else 0)).sum := by
  induction fs generalizing reg with
  | nil => simp
  | cons f fs ih =>
    rw [List.foldl_cons, ih, List.map_cons, List.sum_cons, phase2File]
    split
    · dsimp only
      rw [lookupCount_collectUsage]
      ring
    · ring

theorem parseFiles_usage (reg : Registry) (fs : List SrcFile) (n : String) :
    lookupCount (parseFiles reg fs).usageCount n =
      lookupCount reg.usageCount n + treeOccCount fs n := by
  rw [parseFiles, phase2_usage, phase1_usage, treeOccCount]
  have hsplit : (fs.map (fun f => fileOccCount f n)).sum =
      (fs.map (fun f => if hasSuffix f.filename ".go" then occCount f.idents n else 0)).sum +
      (fs.map (fun f =>
        if hasSuffix f.filename "_test.go" then occCount f.idents n else 0)).sum := by
    induction fs with
    | nil => simp
    | cons f fs ih =>
      rw [List.map_cons, List.sum_cons, ih, List.map_cons, List.sum_cons,
        List.map_cons, List.sum_cons, fileOccCount]
      ring
  rw [hsplit]
  ring

theorem applyWrites_append {α : Type} (m : List (String × α)) (ws1 ws2 : List (String × α)) :
    applyWrites m (ws1 ++ ws2) = applyWrites (applyWrites m ws1) ws2 := by
  rw [applyWrites, applyWrites, applyWrites, List.foldl_append]

theorem collectDecls_eq_applyWrites (ds : List DeclSite) (m : List (String × Decl)) :
    collectDecls ds m = applyWrites m ((ds.filter (fun d => isExported d.name)).map toWrite) := by
  induction ds generalizing m with
  | nil => rfl
  | cons d ds ih =>
    rw [collectDecls, List.foldl_cons]
    rw [show List.foldl (fun acc d =>
      if isExported d.name then mapSet acc d.name (makeDecl d.name d.pos d.endPos) else acc)
      (if isExported d.name then mapSet m d.name (makeDecl d.name d.pos d.endPos) else m) ds =
      collectDecls ds (if isExported d.name then mapSet m d.name (makeDecl d.name d.pos d.endPos)
        else m) from rfl]
    by_cases h : isExported d.name = true
    · rw [if_pos h, ih]
      simp only [List.filter_cons, h, if_true, List.map_cons]
      rfl
    · rw [if_neg h, ih]
      simp [List.filter_cons, h]

theorem phase1_declarations (fs : List SrcFile) (reg : Registry) :
    (fs.foldl phase1File reg).declarations = applyWrites reg.declarations (declWrites fs) := by
  induction fs generalizing reg with
  | nil => rfl
  | cons f fs ih =>
    rw [List.foldl_cons, ih, phase1File]
    have hd : declWrites (f :: fs) =
        (if hasSuffix f.filename ".go" then
          (f.decls.filter (fun d => isExported d.name)).map toWrite
        else []) ++ declWrites fs := by
      rw [declWrites, declWrites]
      by_cases h : hasSuffix f.filename ".go" = true
      · simp only [List.filter_cons, h, if_true, List.flatMap_cons]
      · simp [List.filter_cons, h]
    rw [hd, applyWrites_append]
    by_cases h : hasSuffix f.filename ".go" = true
    · rw [if_pos h, if_pos h]
      dsimp only
      rw [collectDecls_eq_applyWrites]
    · rw [if_neg h, if_neg h]
      rfl

theorem lastWrite_acc {α : Type} (ws : List (String × α)) (n : String) (acc : Option α) :
    ws.foldl (fun a kv => if kv.1 = n then some kv.2 else a) acc =
      firstSome (lastWrite ws n) acc := by
  induction ws generalizing acc with
  | nil => rfl
  | cons kv ws ih =>
    rw [List.foldl_cons, ih]
    rw [show lastWrite (kv :: ws) n =
      ws.foldl (fun a kv => if kv.1 = n then some kv.2 else a)
        (if kv.1 = n then some kv.2 else none) from rfl]
    rw [ih]
    cases h : lastWrite ws n with
    | some v => rfl
    | none =>
      by_cases hk : kv.1 = n
      · simp [firstSome, hk]
      · simp [firstSome, hk]

theorem mapLookup_applyWrites {α : Type} (ws : List (String × α)) (m : List (String × α))
    (n : String) :
    mapLookup (applyWrites m ws) n = firstSome (lastWrite ws n) (mapLookup m n) := by
  induction ws generalizing m with
  | nil => rfl
  | cons kv ws ih =>
    rw [show applyWrites m (kv :: ws) = applyWrites (mapSet m kv.1 kv.2) ws from rfl, ih]
    rw [show lastWrite (kv :: ws) n =
      ws.foldl (fun a kv => if kv.1 = n then some kv.2 else a)
        (if kv.1 = n then some kv.2 else none) from rfl]
    rw [lastWrite_acc]
    cases h : lastWrite ws n with
    | some v => rfl
    | none =>
      dsimp only [firstSome]
      rw [mapLookup_mapSet]
      by_cases hk : kv.1 = n
      · simp [firstSome, hk]
      · simp [firstSome, hk]

theorem parseFiles_decl_lookup (reg : Registry) (fs : List SrcFile) (n : String) :
    mapLookup (parseFiles reg fs).declarations n =
      firstSome (lastWrite (declWrites fs) n) (mapLookup reg.declarations n) := by
  rw [parseFiles, phase2_declarations, phase1_declarations, mapLookup_applyWrites]

/-! ### Claims about collection -/

/-- C6: the declarations map is keyed by bare name only and collection is
last-writer-wins: starting from an empty declarations map, after a
`ParseFiles` run the map holds, for each name, exactly the declaration of
the last `Declarations` write of that name in traversal order. -/
theorem claim_C6 (reg : Registry) (fs : List SrcFile) (n : String)
    (h : reg.declarations = []) :
    mapLookup (parseFiles reg fs).declarations n = lastWrite (declWrites fs) n := by
  rw [parseFiles, phase2_declarations, phase1_declarations, h, mapLookup_applyWrites]
  cases hl : lastWrite (declWrites fs) n with
  | some v => rfl
  | none => rfl

/-- C6 witness: two files both declaring `Foo`; the lookup after collection
equals the last write of `Foo`. -/
theorem claim_C6_witness :
    (newRegistry "p").declarations = [] ∧
    mapLookup (parseFiles (newRegistry "p")
      [⟨"a.go", [⟨"Foo", ⟨"a.go", 1, 1⟩, ⟨"a.go", 3, 1⟩⟩], []⟩,
       ⟨"b.go", [⟨"Foo", ⟨"b.go", 10, 1⟩, ⟨"b.go", 14, 1⟩⟩], []⟩]).declarations "Foo" =
      lastWrite (declWrites
      [⟨"a.go", [⟨"Foo", ⟨"a.go", 1, 1⟩, ⟨"a.go", 3, 1⟩⟩], []⟩,
       ⟨"b.go", [⟨"Foo", ⟨"b.go", 10, 1⟩, ⟨"b.go", 14, 1⟩⟩], []⟩]) "Foo" :=
  ⟨rfl, claim_C6 (newRegistry "p")
      [⟨"a.go", [⟨"Foo", ⟨"a.go", 1, 1⟩, ⟨"a.go", 3, 1⟩⟩], []⟩,
       ⟨"b.go", [⟨"Foo", ⟨"b.go", 10, 1⟩, ⟨"b.go", 14, 1⟩⟩], []⟩] "Foo" rfl⟩

/-- On the witness tree of two same-named declarations, the last write of
`Foo` is indeed the declaration of the later-visited file `b.go`. -/
theorem lastWrite_overwrite_example :
    lastWrite (declWrites
      [⟨"a.go", [⟨"Foo", ⟨"a.go", 1, 1⟩, ⟨"a.go", 3, 1⟩⟩], []⟩,
       ⟨"b.go", [⟨"Foo", ⟨"b.go", 10, 1⟩, ⟨"b.go", 14, 1⟩⟩], []⟩]) "Foo" =
      some (makeDecl "Foo" ⟨"b.go", 10, 1⟩ ⟨"b.go", 14, 1⟩) := by decide

/-- C4 (counterexample): collection is not idempotent. On a tree with one
production file containing one identifier occurrence of `X`, running
`ParseFiles` twice does not leave the registry equal to the state after
running it once: the usage count of `X` is incremented again. -/
theorem claim_C4_cex :
    parseFiles (parseFiles (newRegistry "p") [⟨"a.go", [], ["X"]⟩]) [⟨"a.go", [], ["X"]⟩] ≠
      parseFiles (newRegistry "p") [⟨"a.go", [], ["X"]⟩] := by decide

/-- C4 (amended): running collection twice over the same tree leaves the
declarations map equal (as a name-to-declaration mapping) to the state
after running once, but adds every usage count of the tree a second time;
so collection is idempotent on declarations but not on usage counts. -/
theorem claim_C4 (reg : Registry) (fs : List SrcFile) (n : String) :
    mapLookup (parseFiles (parseFiles reg fs) fs).declarations n =
      mapLookup (parseFiles reg fs).declarations n ∧
    lookupCount (parseFiles (parseFiles reg fs) fs).usageCount n =
      lookupCount (parseFiles reg fs).usageCount n + treeOccCount fs n := by
  constructor
  · have h1 := parseFiles_decl_lookup (parseFiles reg fs) fs n
    have h2 := parseFiles_decl_lookup reg fs n
    rw [h1, h2]
    cases hl : lastWrite (declWrites fs) n with
    | some v => rfl
    | none => rfl
  · exact parseFiles_usage (parseFiles reg fs) fs n

/-- C3: the first walk's filter is the suffix `.go`, which `_test.go`
files also match, so a test-only file is processed by both walks. On a
tree with a single test-only file declaring `Foo` and containing one
occurrence of `Foo`, the run counts the occurrence twice (not once) and
enters `Foo` into the declarations map (which the claim says never
happens for test-only declarations). -/
theorem claim_C3 :
    lookupCount (parseFiles (newRegistry "p")
      [⟨"a_test.go", [⟨"Foo", ⟨"a_test.go", 1, 1⟩, ⟨"a_test.go", 2, 1⟩⟩], ["Foo"]⟩]).usageCount
      "Foo" = 2 ∧
    mapLookup (parseFiles (newRegistry "p")
      [⟨"a_test.go", [⟨"Foo", ⟨"a_test.go", 1, 1⟩, ⟨"a_test.go", 2, 1⟩⟩], ["Foo"]⟩]).declarations
      "Foo" = some (makeDecl "Foo" ⟨"a_test.go", 1, 1⟩ ⟨"a_test.go", 2, 1⟩) := by decide

end Dustat

namespace Dustat

/-! ### Classification: `AccumulateResult` -/

theorem accum_foldl (ig : List String) (us : List (String × Int)) (ds : List (String × Decl)) :
    ∀ res tot, ds.foldl (accumStep ig us) (res, tot) =
      (res ++ (unusedEntries ig us ds).map Prod.snd,
       tot + ((unusedEntries ig us ds).map (fun nd => nd.2.lineCount)).sum) := by
  induction ds with
  | nil => intro res tot; simp [unusedEntries]
  | cons nd ds ih =>
    intro res tot
    rw [List.foldl_cons, accumStep]
    by_cases h1 : nd.1 ∈ ig
    · rw [if_pos h1, ih]
      have hfil : unusedEntries ig us (nd :: ds) = unusedEntries ig us ds := by
        rw [unusedEntries, unusedEntries, List.filter_cons]
        have hdec : decide (¬ nd.1 ∈ ig ∧ lookupCount us nd.1 ≤ 1) = false := by simp [h1]
        rw [hdec]
        simp
      rw [hfil]
    · rw [if_neg h1]
      by_cases h2 : lookupCount us nd.1 ≤ 1
      · rw [if_pos h2, ih]
        have hfil : unusedEntries ig us (nd :: ds) = nd :: unusedEntries ig us ds := by
          rw [unusedEntries, unusedEntries, List.filter_cons]
          have hdec : decide (¬ nd.1 ∈ ig ∧ lookupCount us nd.1 ≤ 1) = true := by
            simp [h1, h2]
          rw [hdec]
          simp
        rw [hfil, List.map_cons, List.map_cons, List.sum_cons, Prod.mk.injEq]
        constructor
        · simp
        · ring
      · rw [if_neg h2, ih]
        have hfil : unusedEntries ig us (nd :: ds) = unusedEntries ig us ds := by
          rw [unusedEntries, unusedEntries, List.filter_cons]
          have hdec : decide (¬ nd.1 ∈ ig ∧ lookupCount us nd.1 ≤ 1) = false := by
            simp [h1, h2]
          rw [hdec]
          simp
        rw [hfil]

theorem accumulate_result_eq (reg : Registry) :
    (accumulateResult reg).result =
      reg.result ++ (unusedEntries reg.ignore reg.usageCount reg.declarations).map Prod.snd := by
  rw [accumulateResult]
  dsimp only
  rw [accum_foldl]

theorem accumulate_total_eq (reg : Registry) :
    (accumulateResult reg).totalUnusedLoc = reg.totalUnusedLoc +
      ((unusedEntries reg.ignore reg.usageCount reg.declarations).map
        (fun nd => nd.2.lineCount)).sum := by
  rw [accumulateResult]
  dsimp only
  rw [accum_foldl]

/-- C1: classification appends a declaration to `Result` (and its line
span to the total) exactly for the map entries whose name is not ignored
and has usage count at most 1 — `Result` becomes precisely those entries'
declarations — and an ignored name never appears in `Result` (given that
entries are keyed by the declaration's own name, as collection
guarantees). -/
theorem claim_C1 (reg : Registry)
    (hres : reg.result = [])
    (hkeys : ∀ nd ∈ reg.declarations, (Prod.snd nd).name = nd.1) :
    (accumulateResult reg).result =
      (unusedEntries reg.ignore reg.usageCount reg.declarations).map Prod.snd ∧
    ∀ n ∈ reg.ignore, ∀ d ∈ (accumulateResult reg).result, d.name ≠ n := by
  constructor
  · rw [accumulate_result_eq, hres, List.nil_append]
  · intro n hn d hd
    rw [accumulate_result_eq, hres, List.nil_append] at hd
    obtain ⟨nd, hmem, hsnd⟩ := List.mem_map.1 hd
    have hfil := List.mem_filter.1 hmem
    have hcond := of_decide_eq_true hfil.2
    have hname := hkeys nd hfil.1
    intro heq
    have heq2 : nd.1 = n := by rw [← hname, hsnd, heq]
    exact hcond.1 (heq2 ▸ hn)

/-- C1 witness: a registry with one unused entry and one ignored entry,
both with usage count 1. -/
theorem claim_C1_witness :
    (((⟨"p", ["Ign"],
        [("Unused", makeDecl "Unused" ⟨"a.go", 1, 1⟩ ⟨"a.go", 3, 1⟩),
         ("Ign", makeDecl "Ign" ⟨"a.go", 5, 1⟩ ⟨"a.go", 6, 1⟩)],
        [("Unused", 1), ("Ign", 1)], [], 0⟩ : Registry).result = []) ∧
      (∀ nd ∈ (⟨"p", ["Ign"],
        [("Unused", makeDecl "Unused" ⟨"a.go", 1, 1⟩ ⟨"a.go", 3, 1⟩),
         ("Ign", makeDecl "Ign" ⟨"a.go", 5, 1⟩ ⟨"a.go", 6, 1⟩)],
        [("Unused", 1), ("Ign", 1)], [], 0⟩ : Registry).declarations,
        (Prod.snd nd).name = nd.1)) ∧
    ((accumulateResult ⟨"p", ["Ign"],
        [("Unused", makeDecl "Unused" ⟨"a.go", 1, 1⟩ ⟨"a.go", 3, 1⟩),
         ("Ign", makeDecl "Ign" ⟨"a.go", 5, 1⟩ ⟨"a.go", 6, 1⟩)],
        [("Unused", 1), ("Ign", 1)], [], 0⟩).result =
      (unusedEntries (⟨"p", ["Ign"],
        [("Unused", makeDecl "Unused" ⟨"a.go", 1, 1⟩ ⟨"a.go", 3, 1⟩),
         ("Ign", makeDecl "Ign" ⟨"a.go", 5, 1⟩ ⟨"a.go", 6, 1⟩)],
        [("Unused", 1), ("Ign", 1)], [], 0⟩ : Registry).ignore
        (⟨"p", ["Ign"],
        [("Unused", makeDecl "Unused" ⟨"a.go", 1, 1⟩ ⟨"a.go", 3, 1⟩),
         ("Ign", makeDecl "Ign" ⟨"a.go", 5, 1⟩ ⟨"a.go", 6, 1⟩)],
        [("Unused", 1), ("Ign", 1)], [], 0⟩ : Registry).usageCount
        (⟨"p", ["Ign"],
        [("Unused", makeDecl "Unused" ⟨"a.go", 1, 1⟩ ⟨"a.go", 3, 1⟩),
         ("Ign", makeDecl "Ign" ⟨"a.go", 5, 1⟩ ⟨"a.go", 6, 1⟩)],
        [("Unused", 1), ("Ign", 1)], [], 0⟩ : Registry).declarations).map Prod.snd ∧
      ∀ n ∈ (⟨"p", ["Ign"],
        [("Unused", makeDecl "Unused" ⟨"a.go", 1, 1⟩ ⟨"a.go", 3, 1⟩),
         ("Ign", makeDecl "Ign" ⟨"a.go", 5, 1⟩ ⟨"a.go", 6, 1⟩)],
        [("Unused", 1), ("Ign", 1)], [], 0⟩ : Registry).ignore,
        ∀ d ∈ (accumulateResult ⟨"p", ["Ign"],
        [("Unused", makeDecl "Unused" ⟨"a.go", 1, 1⟩ ⟨"a.go", 3, 1⟩),
         ("Ign", makeDecl "Ign" ⟨"a.go", 5, 1⟩ ⟨"a.go", 6, 1⟩)],
        [("Unused", 1), ("Ign", 1)], [], 0⟩).result, d.name ≠ n) :=
  ⟨⟨rfl, by decide⟩,
    claim_C1 ⟨"p", ["Ign"],
        [("Unused", makeDecl "Unused" ⟨"a.go", 1, 1⟩ ⟨"a.go", 3, 1⟩),
         ("Ign", makeDecl "Ign" ⟨"a.go", 5, 1⟩ ⟨"a.go", 6, 1⟩)],
        [("Unused", 1), ("Ign", 1)], [], 0⟩ rfl (by decide)⟩

/-- C7: after classification (from the initial empty result and zero
total), `TotalUnusedLoc` equals exactly the sum of the `LineCount` of the
declarations in `Result`, and the `Report` sort preserves the equality. -/
theorem claim_C7 (reg : Registry) (hres : reg.result = []) (htot : reg.totalUnusedLoc = 0) :
    (accumulateResult reg).totalUnusedLoc =
      ((accumulateResult reg).result.map Decl.lineCount).sum ∧
    ((reportSort (accumulateResult reg).result).map Decl.lineCount).sum =
      (accumulateResult reg).totalUnusedLoc := by
  have hmain : (accumulateResult reg).totalUnusedLoc =
      ((accumulateResult reg).result.map Decl.lineCount).sum := by
    rw [accumulate_total_eq, accumulate_result_eq, hres, htot, List.nil_append,
      List.map_map]
    rw [zero_add]
    rfl
  refine ⟨hmain, ?_⟩
  have hperm : List.Perm (reportSort (accumulateResult reg).result)
      (accumulateResult reg).result := List.perm_insertionSort _ _
  rw [hmain]
  exact (hperm.map Decl.lineCount).sum_eq

/-- C7 witness: a registry with one 3-line unused declaration. -/
theorem claim_C7_witness :
    (((⟨"p", [], [("A", makeDecl "A" ⟨"a.go", 1, 1⟩ ⟨"a.go", 3, 1⟩)], [], [], 0⟩ :
        Registry).result = []) ∧
      ((⟨"p", [], [("A", makeDecl "A" ⟨"a.go", 1, 1⟩ ⟨"a.go", 3, 1⟩)], [], [], 0⟩ :
        Registry).totalUnusedLoc = 0)) ∧
    ((accumulateResult ⟨"p", [], [("A", makeDecl "A" ⟨"a.go", 1, 1⟩ ⟨"a.go", 3, 1⟩)],
        [], [], 0⟩).totalUnusedLoc =
      ((accumulateResult ⟨"p", [], [("A", makeDecl "A" ⟨"a.go", 1, 1⟩ ⟨"a.go", 3, 1⟩)],
        [], [], 0⟩).result.map Decl.lineCount).sum ∧
     ((reportSort (accumulateResult ⟨"p", [],
        [("A", makeDecl "A" ⟨"a.go", 1, 1⟩ ⟨"a.go", 3, 1⟩)],
        [], [], 0⟩).result).map Decl.lineCount).sum =
      (accumulateResult ⟨"p", [], [("A", makeDecl "A" ⟨"a.go", 1, 1⟩ ⟨"a.go", 3, 1⟩)],
        [], [], 0⟩).totalUnusedLoc) :=
  ⟨⟨rfl, rfl⟩,
    claim_C7 ⟨"p", [], [("A", makeDecl "A" ⟨"a.go", 1, 1⟩ ⟨"a.go", 3, 1⟩)], [], [], 0⟩
      rfl rfl⟩

end Dustat

namespace Dustat

/-! ### The fix step -/

theorem fixLoop_false (env : FixEnv) (l : List Decl) :
    ∀ acc, (fixLoop env false l acc).attempts =
        acc.attempts ++ l.filter (fun d => decide (¬ toUnexported d.name = d.name)) ∧
      (fixLoop env false l acc).failed =
        acc.failed + ((l.filter (fun d =>
          decide (¬ toUnexported d.name = d.name) &&
            !env.renameOk d (toUnexported d.name))).length : Int) := by
  induction l with
  | nil => intro acc; simp [fixLoop]
  | cons d rest ih =>
    intro acc
    rw [show fixLoop env false (d :: rest) acc =
      (if toUnexported d.name = d.name then
        fixLoop env false rest { acc with skipped := acc.skipped + 1 }
      else if false then
        fixLoop env false rest { acc with successful := acc.successful + 1 }
      else if env.renameOk d (toUnexported d.name) then
        fixLoop env false rest
          { acc with attempts := acc.attempts ++ [d], successful := acc.successful + 1 }
      else
        fixLoop env false rest
          { acc with attempts := acc.attempts ++ [d], failed := acc.failed + 1 }) from rfl]
    by_cases h1 : toUnexported d.name = d.name
    · rw [if_pos h1]
      obtain ⟨iha, ihf⟩ := ih { acc with skipped := acc.skipped + 1 }
      refine ⟨?_, ?_⟩
      · rw [iha]
        simp [List.filter_cons, h1]
      · rw [ihf]
        simp [List.filter_cons, h1]
    · rw [if_neg h1, if_neg (by simp)]
      by_cases h2 : env.renameOk d (toUnexported d.name) = true
      · rw [if_pos h2]
        obtain ⟨iha, ihf⟩ := ih
          { acc with attempts := acc.attempts ++ [d], successful := acc.successful + 1 }
        refine ⟨?_, ?_⟩
        · rw [iha]
          simp [List.filter_cons, h1]
        · rw [ihf]
          simp [List.filter_cons, h1, h2]
      · rw [if_neg h2]
        obtain ⟨iha, ihf⟩ := ih
          { acc with attempts := acc.attempts ++ [d], failed := acc.failed + 1 }
        refine ⟨?_, ?_⟩
        · rw [iha]
          simp [List.filter_cons, h1]
        · rw [ihf]
          have h2f : env.renameOk d (toUnexported d.name) = false := by
            cases hr : env.renameOk d (toUnexported d.name)
            · rfl
            · exact absurd hr h2
          simp [List.filter_cons, h1, h2f]
          ring

/-- C8: in fix mode, a missing `gopls` makes `Fix` fail before any rename
is attempted; in a non-dry run with `gopls` present, the renames attempted
are exactly all the sorted result items whose name changes — regardless of
individual failures, so every remaining item is still processed — and
`Fix` returns an error precisely when at least one attempted rename
failed. -/
theorem claim_C8 (env : FixEnv) (reg : Registry) (dryRun : Bool) :
    (env.goplsPresent = false →
      (Fix env reg dryRun).isErr = true ∧ (Fix env reg dryRun).counts.attempts = []) ∧
    (env.goplsPresent = true →
      (Fix env reg false).counts.attempts =
        (fixSort reg.result).filter (fun d => decide (¬ toUnexported d.name = d.name)) ∧
      ((Fix env reg false).isErr = true ↔
        ∃ d ∈ (Fix env reg false).counts.attempts,
          env.renameOk d (toUnexported d.name) = false)) := by
  constructor
  · intro hg
    rw [Fix, if_pos hg]
    exact ⟨rfl, rfl⟩
  · intro hg
    have hg2 : ¬ env.goplsPresent = false := by rw [hg]; decide
    rw [Fix, if_neg hg2]
    by_cases hempty : reg.result.length = 0
    · rw [if_pos hempty]
      have hnil : reg.result = [] := List.length_eq_zero.1 hempty
      constructor
      · rw [hnil]
        rfl
      · constructor
        · intro hfalse
          exact absurd hfalse Bool.false_ne_true
        · rintro ⟨d, hd, _⟩
          exact absurd hd (List.not_mem_nil d)
    · rw [if_neg hempty]
      obtain ⟨ha, hf⟩ := fixLoop_false env (fixSort reg.result) ⟨[], 0, 0, 0⟩
      dsimp only
      constructor
      · rw [ha]
        simp
      · rw [decide_eq_true_iff]
        constructor
        · rintro ⟨-, hpos⟩
          rw [hf] at hpos
          dsimp only at hpos
          rw [zero_add] at hpos
          have hlen : 0 < ((fixSort reg.result).filter (fun d =>
              decide (¬ toUnexported d.name = d.name) &&
                !env.renameOk d (toUnexported d.name))).length := by
            exact_mod_cast hpos
          obtain ⟨d, hd⟩ := List.exists_mem_of_length_pos hlen
          have hfil := List.mem_filter.1 hd
          have hb := hfil.2
          rw [Bool.and_eq_true] at hb
          refine ⟨d, ?_, ?_⟩
          · rw [ha]
            simp only [List.nil_append]
            exact List.mem_filter.2 ⟨hfil.1, hb.1⟩
          · have := hb.2
            cases hr : env.renameOk d (toUnexported d.name)
            · rfl
            · rw [hr] at this
              exact absurd this (by decide)
        · rintro ⟨d, hd, hok⟩
          refine ⟨rfl, ?_⟩
          rw [hf]
          dsimp only
          rw [zero_add]
          rw [ha] at hd
          simp only [List.nil_append] at hd
          have hfil := List.mem_filter.1 hd
          have hmem2 : d ∈ (fixSort reg.result).filter (fun d =>
              decide (¬ toUnexported d.name = d.name) &&
                !env.renameOk d (toUnexported d.name)) := by
            refine List.mem_filter.2 ⟨hfil.1, ?_⟩
            rw [Bool.and_eq_true]
            exact ⟨hfil.2, by rw [hok]; rfl⟩
          have hlen : 0 < ((fixSort reg.result).filter (fun d =>
              decide (¬ toUnexported d.name = d.name) &&
                !env.renameOk d (toUnexported d.name))).length :=
            List.length_pos.2 (List.ne_nil_of_mem hmem2)
          exact_mod_cast hlen

/-- C8 witness: with `gopls` absent `Fix` errors with no attempts; with
`gopls` present, one changed-name item and an always-failing rename tool,
the attempts are the whole filtered sorted result and the error is
equivalent to the existence of a failed attempt. -/
theorem claim_C8_witness :
    ((Fix ⟨false, fun _ _ => true⟩ (newRegistry "p") false).isErr = true ∧
      (Fix ⟨false, fun _ _ => true⟩ (newRegistry "p") false).counts.attempts = []) ∧
    ((Fix ⟨true, fun _ _ => false⟩
        ⟨"p", [], [], [], [makeDecl "Foo" ⟨"a.go", 1, 1⟩ ⟨"a.go", 2, 1⟩], 0⟩
        false).counts.attempts =
      (fixSort (⟨"p", [], [], [], [makeDecl "Foo" ⟨"a.go", 1, 1⟩ ⟨"a.go", 2, 1⟩], 0⟩ :
        Registry).result).filter (fun d => decide (¬ toUnexported d.name = d.name)) ∧
      ((Fix ⟨true, fun _ _ => false⟩
        ⟨"p", [], [], [], [makeDecl "Foo" ⟨"a.go", 1, 1⟩ ⟨"a.go", 2, 1⟩], 0⟩
        false).isErr = true ↔
        ∃ d ∈ (Fix ⟨true, fun _ _ => false⟩
          ⟨"p", [], [], [], [makeDecl "Foo" ⟨"a.go", 1, 1⟩ ⟨"a.go", 2, 1⟩], 0⟩
          false).counts.attempts,
          (⟨true, fun _ _ => false⟩ : FixEnv).renameOk d (toUnexported d.name) = false)) :=
  ⟨(claim_C8 ⟨false, fun _ _ => true⟩ (newRegistry "p") false).1 rfl,
   (claim_C8 ⟨true, fun _ _ => false⟩
      ⟨"p", [], [], [], [makeDecl "Foo" ⟨"a.go", 1, 1⟩ ⟨"a.go", 2, 1⟩], 0⟩ false).2 rfl⟩

/-! ### The structured report -/

/-- C9: the structured report is a sequence of per-file entries sorted
ascending by file path, each entry's issues sorted ascending by line, and
a run with zero results produces the non-nil empty slice (marshalled
`[]`), not a nil slice (marshalled `null`) or absent output. -/
theorem claim_C9 (rs : List Decl) :
    List.Sorted (fun a b : FileIssues => a.file ≤ b.file) (reportJSON rs) ∧
    (∀ fi ∈ reportJSON rs, List.Sorted (fun a b : Issue => a.line ≤ b.line) fi.issues) ∧
    reportJSONSlice [] = some ([] : List FileIssues) := by
  refine ⟨?_, ?_, rfl⟩
  · exact List.sorted_insertionSort _ _
  · intro fi hfi
    rw [reportJSON] at hfi
    have hmem := (List.perm_insertionSort
      (fun a b : FileIssues => a.file ≤ b.file) _).mem_iff.1 hfi
    obtain ⟨kv, _, hfi2⟩ := List.mem_map.1 hmem
    rw [← hfi2]
    exact List.sorted_insertionSort _ _

end Dustat
